import Mathlib

/-!
Verification of the chunked file-upload service (`app.py`) against its
natural-language specification.  The Python source is shallowly embedded:
pure string manipulation becomes functions on `List Char`, the on-disk
staging area and the shared directory become association lists, and the
in-memory lock registry becomes an explicit state record.  Fallible
operations return `Except`/`Option`.
-/

namespace SimpleShare

/-- Association-list lookup with decidable key equality.  Models a Python
dict lookup, and also the "which file has this name" question for a flat
directory listing. -/
def alookup {α β : Type} [DecidableEq α] : List (α × β) → α → Option β
  | [], _ => none
  | (k, v) :: rest, key => if key = k then some v else alookup rest key

/-- Association-list update-or-insert.  Models writing a file at a given
name (overwriting the previous content if the name already exists). -/
def aupdate {α β : Type} [DecidableEq α] : List (α × β) → α → β → List (α × β)
  | [], k, v => [(k, v)]
  | (k', v') :: rest, k, v =>
      if k' = k then (k, v) :: rest else (k', v') :: aupdate rest k v

/-- Association-list erase.  Models `os.remove` of the entry with the
given name. -/
def aerase {α β : Type} [DecidableEq α] (l : List (α × β)) (k : α) : List (α × β) :=
  l.filter (fun p => decide (p.1 ≠ k))

theorem alookup_aupdate_self {α β : Type} [DecidableEq α]
    (l : List (α × β)) (k : α) (v : β) : alookup (aupdate l k v) k = some v := by
  induction l with
  | nil => simp [aupdate, alookup]
  | cons hd tl ih =>
      by_cases h : hd.1 = k
      · simp [aupdate, h, alookup]
      · simpa [aupdate, h, alookup, Ne.symm h] using ih

theorem alookup_aupdate_ne {α β : Type} [DecidableEq α]
    (l : List (α × β)) (k k' : α) (v : β) (h : k' ≠ k) :
    alookup (aupdate l k v) k' = alookup l k' := by
  induction l with
  | nil => simp [aupdate, alookup, h]
  | cons hd tl ih =>
      by_cases hk : hd.1 = k
      · subst hk
        simp [aupdate, alookup, h]
      · by_cases hk' : k' = hd.1
        · simp [aupdate, hk, alookup, hk']
        · simp [aupdate, hk, alookup, hk', ih]

theorem aupdate_aupdate_same {α β : Type} [DecidableEq α]
    (l : List (α × β)) (k : α) (v : β) :
    aupdate (aupdate l k v) k v = aupdate l k v := by
  induction l with
  | nil => simp [aupdate]
  | cons hd tl ih =>
      by_cases h : hd.1 = k
      · simp [aupdate, h]
      · simp [aupdate, h, ih]

theorem alookup_aerase_ne {α β : Type} [DecidableEq α]
    (l : List (α × β)) (k k' : α) (h : k' ≠ k) :
    alookup (aerase l k) k' = alookup l k' := by
  induction l with
  | nil => simp [aerase, alookup]
  | cons hd tl ih =>
      by_cases hk : hd.1 = k
      · subst hk
        simp [aerase, alookup, fun hh : k' = hd.1 => h hh]
        simpa [aerase] using ih
      · by_cases hk' : k' = hd.1
        · simp [aerase, hk, alookup, hk']
        · simp [aerase, hk, alookup, hk']
          simpa [aerase] using ih

theorem alookup_append_left {α β : Type} [DecidableEq α]
    (l l' : List (α × β)) (k : α) (v : β) (h : alookup l k = some v) :
    alookup (l ++ l') k = some v := by
  induction l with
  | nil => simp [alookup] at h
  | cons hd tl ih =>
      by_cases hk : k = hd.1
      · simpa [alookup, hk] using by simpa [alookup, hk] using h
      · simp only [alookup, hk, if_false, List.cons_append] at h ⊢
        exact ih h

theorem alookup_append_right {α β : Type} [DecidableEq α]
    (l l' : List (α × β)) (k : α) (h : alookup l k = none) :
    alookup (l ++ l') k = alookup l' k := by
  induction l with
  | nil => simp [alookup]
  | cons hd tl ih =>
      by_cases hk : k = hd.1
      · simp [alookup, hk] at h
      · simp only [alookup, hk, if_false, List.cons_append] at h ⊢
        exact ih h

/-! ### Chunk Store (`upload_chunk`, lines 665-671 of `app.py`)

A staged chunk lives at `temp_uploads/<uploadId>/chunk_<index>`.  Distinct
sessions use distinct directories and the slot name is determined by the
index, so the staging area is modelled as an association list keyed by the
pair `(uploadId, chunkIndex)`.  `chunk.save(chunk_path)` overwrites any
existing slot content. -/

/-- The staging area: content of every staged chunk, keyed by
(session id, chunk index).  Chunk bytes are modelled as `List Nat`. -/
def Staging : Type := List ((String × Nat) × List Nat)

instance : DecidableEq Staging := by
  unfold Staging
  infer_instance

/-- The empty staging area. -/
def emptyStaging : Staging := []

/-- Stage one chunk: `chunk.save(os.path.join(temp_dir, f"chunk_(index)"))`.
Overwrites the slot if it is already present. -/
def stage (st : Staging) (sid : String) (i : Nat) (b : List Nat) : Staging :=
  aupdate st (sid, i) b

/-- Content of the staged chunk at `(sid, i)`, `none` when that slot file
does not exist. -/
def chunkAt (st : Staging) (sid : String) (i : Nat) : Option (List Nat) :=
  alookup st (sid, i)

/-- One staging request: session id, chunk index, chunk bytes. -/
def StageOp : Type := String × Nat × List Nat

/-- Run a sequence of staging requests, in arrival order; sessions may be
interleaved arbitrarily. -/
def runStages (ops : List StageOp) (st : Staging) : Staging :=
  ops.foldl (fun s op => stage s op.1 op.2.1 op.2.2) st

/-! ### Merge Engine (`upload_chunk`, lines 687-697 of `app.py`)

The code opens the destination with `open(final_path, 'wb')` and then, for
`i in range(total_chunks)`, checks `os.path.exists(chunk_file_path)` and
appends the chunk's bytes; a missing chunk raises an exception naming the
index.  Because the bytes are written incrementally to the already-open
destination, the model returns both the bytes that reached the
destination file and the error, if any: on error the destination file is
left holding the bytes accumulated so far. -/

/-- The merge loop over a list of chunk indices.  `acc` is the content of
the (already open and truncated) destination file so far.  Returns the
destination file's final content and `some i` if chunk `i` was missing. -/
def mergeLoop (st : Staging) (sid : String) :
    List Nat → List Nat → List Nat × Option Nat
  | [], acc => (acc, none)
  | i :: rest, acc =>
      match chunkAt st sid i with
      | none => (acc, some i)
      | some b => mergeLoop st sid rest (acc ++ b)

/-- The merge of a session with `total` chunks: iterate `i` over
`range total`, starting from an empty (freshly truncated) destination. -/
def mergeRun (st : Staging) (sid : String) (total : Nat) : List Nat × Option Nat :=
  mergeLoop st sid (List.range total) []

/-- Full finalization step: run the merge; on success delete the session's
staging directory (`remove_temp_dir`), on failure leave the staging area
untouched (the exception propagates before `remove_temp_dir` is reached).
Returns (staging area after, destination file content, error). -/
def finalize_session (st : Staging) (sid : String) (total : Nat) :
    Staging × List Nat × Option Nat :=
  match mergeRun st sid total with
  | (bytes, some i) => (st, bytes, some i)
  | (bytes, none) =>
      (List.filter (fun p => decide (p.1.1 ≠ sid)) st, bytes, none)

theorem mergeLoop_all_present (st : Staging) (sid : String)
    (idxs : List Nat) (f : Nat → List Nat)
    (h : ∀ i ∈ idxs, chunkAt st sid i = some (f i)) :
    ∀ acc, mergeLoop st sid idxs acc = (acc ++ (idxs.map f).flatten, none) := by
  induction idxs with
  | nil => intro acc; simp [mergeLoop]
  | cons i rest ih =>
      intro acc
      have hi : chunkAt st sid i = some (f i) := h i (by simp)
      have hrest : ∀ j ∈ rest, chunkAt st sid j = some (f j) :=
        fun j hj => h j (by simp [hj])
      simp only [mergeLoop, hi]
      rw [ih hrest (acc ++ f i)]
      simp

/-- C1: For every upload session whose chunks 0..totalChunks-1 are all
staged (in any arrival order, interleaved arbitrarily with other
sessions), the merge triggered by the final chunk produces a file whose
bytes equal the exact concatenation of the staged chunks' bytes in
increasing index order. -/
theorem upload_merge_concat (ops : List StageOp) (sid : String) (total : Nat)
    (f : Nat → List Nat)
    (h : ∀ i, i < total → chunkAt (runStages ops emptyStaging) sid i = some (f i)) :
    mergeRun (runStages ops emptyStaging) sid total =
      (((List.range total).map f).flatten, none) := by
  unfold mergeRun
  rw [mergeLoop_all_present (runStages ops emptyStaging) sid (List.range total) f
    (fun i hi => h i (List.mem_range.mp hi)) []]
  simp

/-- Witness for C1: two sessions interleaved, session `s1`'s chunks arriving
out of order; the merge of `s1` yields exactly chunk0 ++ chunk1. -/
theorem upload_merge_concat_witness :
    (∀ i, i < 2 →
      chunkAt (runStages [("s1", 1, [3, 4]), ("s2", 0, [9]), ("s1", 0, [1, 2])]
        emptyStaging) "s1" i =
        some (if i = 0 then [1, 2] else [3, 4])) ∧
    mergeRun (runStages [("s1", 1, [3, 4]), ("s2", 0, [9]), ("s1", 0, [1, 2])]
        emptyStaging) "s1" 2 = ([1, 2, 3, 4], none) := by
  refine ⟨by decide, ?_⟩
  have := upload_merge_concat
    [("s1", 1, [3, 4]), ("s2", 0, [9]), ("s1", 0, [1, 2])] "s1" 2
    (fun i => if i = 0 then [1, 2] else [3, 4]) (by decide)
  simpa using this

/-- A staging state for a session `s1` with `totalChunks = 3` in which
chunks 0 and 2 are staged but chunk 1 is missing (the client never sent it
or it was lost). -/
def stagingMissing1 : Staging :=
  stage (stage emptyStaging "s1" 0 [1, 2]) "s1" 2 [5]

/-- C2 (code bug evidence): when chunk 1 of 3 is missing, the merge aborts
naming index 1 and the staging area is left staged — but the destination
file is left containing chunk 0's bytes `[1, 2]`: a partial, truncated
result, which the specification's invariant forbids. -/
theorem merge_partial_file_bug :
    finalize_session stagingMissing1 "s1" 3 = (stagingMissing1, [1, 2], some 1) ∧
    ([1, 2] : List Nat) ≠ [] := by
  constructor
  · rfl
  · decide

/-- C5: staging writes the chunk's bytes to the slot named by its index,
overwriting any prior content; re-sending the same chunk index with the
same content is a no-op on the staging state, hence on any later merge
output; slots of other (session, index) pairs are unaffected. -/
theorem stage_idempotent (st : Staging) (sid : String) (i : Nat) (b : List Nat) :
    chunkAt (stage st sid i b) sid i = some b ∧
    stage (stage st sid i b) sid i b = stage st sid i b ∧
    (∀ sid' i', (sid', i') ≠ (sid, i) →
      chunkAt (stage st sid i b) sid' i' = chunkAt st sid' i') ∧
    (∀ sid' total, mergeRun (stage (stage st sid i b) sid i b) sid' total =
      mergeRun (stage st sid i b) sid' total) := by
  refine ⟨alookup_aupdate_self st (sid, i) b,
          aupdate_aupdate_same st (sid, i) b,
          fun sid' i' h => alookup_aupdate_ne st (sid, i) (sid', i') b h,
          fun sid' total => ?_⟩
  simp only [stage, aupdate_aupdate_same st (sid, i) b]

/-- Witness for C5 at a concrete staging state, discharging the
inequality hypothesis of the third conjunct. -/
theorem stage_idempotent_witness :
    chunkAt (stage [(("s2", 0), [7])] "s1" 0 [1]) "s1" 0 = some [1] ∧
    stage (stage [(("s2", 0), [7])] "s1" 0 [1]) "s1" 0 [1] =
      stage [(("s2", 0), [7])] "s1" 0 [1] ∧
    chunkAt (stage [(("s2", 0), [7])] "s1" 0 [1]) "s2" 0 = chunkAt [(("s2", 0), [7])] "s2" 0 := by
  refine ⟨(stage_idempotent [(("s2", 0), [7])] "s1" 0 [1]).1,
          (stage_idempotent [(("s2", 0), [7])] "s1" 0 [1]).2.1,
          (stage_idempotent [(("s2", 0), [7])] "s1" 0 [1]).2.2.1 "s2" 0 (by decide)⟩

/-! ### Filename sanitization (`safe_filename`, lines 563-574, and the
extension re-appending in `upload_chunk`, lines 656-661)

Filenames are modelled as `List Char`.  The server runs on POSIX, so
`os.path.basename` splits on `'/'` only, and `os.path.splitext` takes the
suffix from the last dot of the final path component unless every
character before that dot (within the component) is itself a dot. -/

/-- `os.path.basename` on POSIX: everything after the last `'/'`. -/
def posixBasename (p : List Char) : List Char :=
  (p.reverse.takeWhile (fun c => decide (c ≠ '/'))).reverse

/-- Python `str.replace("..", "")`: delete non-overlapping occurrences of
`".."` scanning left to right. -/
def replaceDotdot : List Char → List Char
  | [] => []
  | [c] => [c]
  | a :: b :: rest =>
      if a = '.' ∧ b = '.' then replaceDotdot rest
      else a :: replaceDotdot (b :: rest)

/-- Python `str.replace(x, "")` for a single character `x`: remove every
occurrence. -/
def removeChar (x : Char) (s : List Char) : List Char :=
  s.filter (fun c => decide (c ≠ x))

/-- The body of `safe_filename` before the empty-name fallback: basename,
then `replace('..','')`, then `replace('/','')`, then `replace('\\','')`,
in exactly that order. -/
def stripped (filename : List Char) : List Char :=
  removeChar '\\' (removeChar '/' (replaceDotdot (posixBasename filename)))

/-- `safe_filename` from `app.py`: the stripped name, or the placeholder
`"unnamed_file"` when stripping left nothing. -/
def safe_filename (filename : List Char) : List Char :=
  if stripped filename = [] then "unnamed_file".toList else stripped filename

/-- Number of characters strictly after the last dot of `w` (equals
`w.length` when `w` has no dot); `w.length - afterLastDot w - 1` is then
the index of the last dot, Python's `p.rfind('.')`. -/
def afterLastDot (w : List Char) : Nat :=
  (w.reverse.takeWhile (fun c => decide (c ≠ '.'))).length

/-- The extension part of `os.path.splitext` for a single path component
`w` (a string without `'/'`): the suffix of `w` from its last dot, unless
every character before that dot is a dot (then `""`). -/
def extOf (w : List Char) : List Char :=
  if afterLastDot w = w.length then []
  else if (w.take (w.length - afterLastDot w - 1)).all (fun c => decide (c = '.')) then []
  else w.drop (w.length - afterLastDot w - 1)

/-- `os.path.splitext(p)[1]`: the last dot of `p` only counts when it lies
inside the final path component, so the extension of a path is the
extension of its basename. -/
def splitext_ext (p : List Char) : List Char :=
  extOf (posixBasename p)

/-- `os.path.splitext(p)[0]`: everything before the extension. -/
def splitextRoot (p : List Char) : List Char :=
  p.take (p.length - (splitext_ext p).length)

/-- The filename computed by `upload_chunk` before the merge: the
sanitized name, with the raw extension re-appended when the raw name had
an extension and the sanitized name does not
(`if raw_ext and not sanitized_ext`). -/
def merged_filename (raw : List Char) : List Char :=
  if splitext_ext raw ≠ [] ∧ splitext_ext (safe_filename raw) = []
  then safe_filename raw ++ splitext_ext raw
  else safe_filename raw

/-- The disambiguated name on collision (lines 681-684 of `app.py`):
`f"(name)_(timestamp)(ext)"` where `name, ext = os.path.splitext(filename)`. -/
def collision_filename (fname ts : List Char) : List Char :=
  splitextRoot fname ++ '_' :: (ts ++ splitext_ext fname)

/-- The filename the merge finally writes to: the merged filename, or its
time-suffixed variant when `os.path.exists(final_path)` was true.  The
existence test is abstracted as the oracle `ex`. -/
def final_name (raw ts : List Char) (ex : List Char → Bool) : List Char :=
  if ex (merged_filename raw) then collision_filename (merged_filename raw) ts
  else merged_filename raw

theorem mem_posixBasename (p : List Char) (c : Char) (h : c ∈ posixBasename p) :
    c ≠ '/' ∧ c ∈ p := by
  unfold posixBasename at h
  rw [List.mem_reverse] at h
  refine ⟨by simpa using List.mem_takeWhile_imp h, ?_⟩
  have := (List.takeWhile_prefix (l := p.reverse) (fun c => decide (c ≠ '/'))).subset h
  simpa using this

theorem mem_extOf (w : List Char) (c : Char) (h : c ∈ extOf w) : c ∈ w := by
  unfold extOf at h
  split at h
  · cases h
  · split at h
    · cases h
    · exact List.drop_subset _ _ h

theorem extOf_length_le (w : List Char) : (extOf w).length ≤ w.length := by
  unfold extOf
  split
  · simp
  · split
    · simp
    · simp

theorem mem_splitext_ext (p : List Char) (c : Char) (h : c ∈ splitext_ext p) :
    c ≠ '/' ∧ c ∈ p := by
  have hb := mem_extOf _ _ h
  exact ⟨(mem_posixBasename p c hb).1, (mem_posixBasename p c hb).2⟩

theorem posixBasename_length_le (p : List Char) :
    (posixBasename p).length ≤ p.length := by
  unfold posixBasename
  calc (p.reverse.takeWhile (fun c => decide (c ≠ '/'))).reverse.length
      = (p.reverse.takeWhile (fun c => decide (c ≠ '/'))).length := by simp
    _ ≤ p.reverse.length := (List.takeWhile_prefix _).length_le
    _ = p.length := by simp

theorem splitext_ext_length_le (p : List Char) :
    (splitext_ext p).length ≤ p.length := by
  exact le_trans (extOf_length_le _) (posixBasename_length_le p)

theorem collision_filename_length (fname ts : List Char) :
    (collision_filename fname ts).length = fname.length + 1 + ts.length := by
  have hle := splitext_ext_length_le fname
  simp only [collision_filename, splitextRoot, List.length_append, List.length_cons,
    List.length_take]
  omega

theorem collision_filename_ne (fname ts : List Char) :
    collision_filename fname ts ≠ fname := by
  intro h
  have := congrArg List.length h
  rw [collision_filename_length] at this
  omega

theorem underscore_mem_collision (fname ts : List Char) :
    '_' ∈ collision_filename fname ts := by
  unfold collision_filename
  simp

theorem mem_collision (fname ts : List Char) (c : Char)
    (h : c ∈ collision_filename fname ts) : c ∈ fname ∨ c = '_' ∨ c ∈ ts := by
  unfold collision_filename at h
  rcases List.mem_append.mp h with h | h
  · exact Or.inl (List.take_subset _ _ h)
  · rcases List.mem_cons.mp h with h | h
    · exact Or.inr (Or.inl h)
    · rcases List.mem_append.mp h with h | h
      · exact Or.inr (Or.inr h)
      · exact Or.inl (mem_splitext_ext fname c h).2

theorem mem_stripped (raw : List Char) (c : Char) (h : c ∈ stripped raw) :
    c ≠ '/' ∧ c ≠ '\\' := by
  unfold stripped removeChar at h
  have h1 := List.mem_filter.mp h
  have h2 := List.mem_filter.mp h1.1
  refine ⟨?_, ?_⟩
  · simpa using h2.2
  · simpa using h1.2

theorem safe_filename_ne_nil (raw : List Char) : safe_filename raw ≠ [] := by
  unfold safe_filename
  split
  · decide
  · assumption

theorem mem_safe_filename (raw : List Char) (c : Char) (h : c ∈ safe_filename raw) :
    c ≠ '/' := by
  unfold safe_filename at h
  split at h
  · have hall : ∀ x ∈ "unnamed_file".toList, x ≠ '/' := by decide
    exact hall c h
  · exact (mem_stripped raw c h).1

theorem merged_filename_ne_nil (raw : List Char) : merged_filename raw ≠ [] := by
  unfold merged_filename
  split
  · intro h
    exact safe_filename_ne_nil raw (List.append_eq_nil.mp h).1
  · exact safe_filename_ne_nil raw

theorem mem_merged_filename (raw : List Char) (c : Char)
    (h : c ∈ merged_filename raw) : c ≠ '/' := by
  unfold merged_filename at h
  split at h
  · rcases List.mem_append.mp h with h | h
    · exact mem_safe_filename raw c h
    · exact (mem_splitext_ext raw c h).1
  · exact mem_safe_filename raw c h

theorem mem_replaceDotdot (c : Char) (hc : c ≠ '.') :
    ∀ s : List Char, c ∈ s → c ∈ replaceDotdot s := by
  have key : ∀ (n : Nat) (s : List Char), s.length ≤ n → c ∈ s → c ∈ replaceDotdot s := by
    intro n
    induction n with
    | zero =>
        intro s hs hm
        have : s = [] := List.eq_nil_of_length_eq_zero (Nat.le_zero.mp hs)
        subst this
        cases hm
    | succ n ih =>
        intro s hs hm
        match s with
        | [] => cases hm
        | [a] => simpa [replaceDotdot] using hm
        | a :: b :: rest =>
            by_cases hab : a = '.' ∧ b = '.'
            · obtain ⟨ha, hb⟩ := hab
              subst ha
              subst hb
              simp only [replaceDotdot, if_pos (And.intro rfl rfl)]
              have hmr : c ∈ rest := by
                rcases List.mem_cons.mp hm with h | h
                · exact absurd h hc
                · rcases List.mem_cons.mp h with h | h
                  · exact absurd h hc
                  · exact h
              exact ih rest (by simp at hs; omega) hmr
            · simp only [replaceDotdot, if_neg hab]
              rcases List.mem_cons.mp hm with h | h
              · exact List.mem_cons.mpr (Or.inl h)
              · exact List.mem_cons.mpr
                  (Or.inr (ih (b :: rest) (by simp at hs ⊢; omega) h))
  exact fun s => key s.length s le_rfl

theorem mem_removeChar (x c : Char) (s : List Char) (h : c ∈ s) (hx : c ≠ x) :
    c ∈ removeChar x s := by
  exact List.mem_filter.mpr ⟨h, by simpa using hx⟩

theorem stripped_empty_chars (raw : List Char) (h : stripped raw = []) :
    ∀ c ∈ posixBasename raw, c = '.' ∨ c = '\\' := by
  intro c hc
  by_contra hcon
  push_neg at hcon
  obtain ⟨hdot, hbs⟩ := hcon
  have hslash := (mem_posixBasename raw c hc).1
  have h1 : c ∈ replaceDotdot (posixBasename raw) :=
    mem_replaceDotdot c hdot _ hc
  have h2 : c ∈ removeChar '/' (replaceDotdot (posixBasename raw)) :=
    mem_removeChar '/' c _ h1 hslash
  have h3 : c ∈ stripped raw := mem_removeChar '\\' c _ h2 hbs
  rw [h] at h3
  cases h3

/-- C3 (counterexample): sanitization does not neutralize the
path-traversal sequence `".."` — removing backslashes after removing dot
pairs can reassemble it.  `safe_filename(".\.")` is literally `".."`, and
the filename `upload_chunk` uses for the merge destination of raw name
`"\."` is `".."`, whose candidate path `shared/..` escapes the shared
directory. -/
theorem sanitize_dotdot_cex :
    safe_filename ".\\.".toList = "..".toList ∧
    merged_filename "\\.".toList = "..".toList := by
  constructor
  · rfl
  · rfl

/-- C3 (amended): sanitization strips directory components, removes every
`'/'` and `'\'` and deletes `".."` pairs, maps `"../../etc/passwd"` to
`"passwd"` and an empty result to `"unnamed_file"`; backslash removal can
reassemble `".."`, but the name the merge finally writes to never escapes
the shared directory: it contains no `'/'` and is never `""`, `"."` or
`".."`, because the paths `shared/.` and `shared/..` always exist, which
forces the time-suffix rename whose result contains `'_'`. -/
theorem destination_never_escapes (raw ts : List Char) (ex : List Char → Bool)
    (hdot : ex ['.'] = true) (hdotdot : ex ['.', '.'] = true)
    (hts : ∀ c ∈ ts, c ≠ '/') :
    (∀ c ∈ final_name raw ts ex, c ≠ '/') ∧
    final_name raw ts ex ≠ [] ∧
    final_name raw ts ex ≠ ['.'] ∧
    final_name raw ts ex ≠ ['.', '.'] ∧
    safe_filename "../../etc/passwd".toList = "passwd".toList ∧
    merged_filename "../../etc/passwd".toList = "passwd".toList ∧
    safe_filename "x/////".toList = "unnamed_file".toList := by
  refine ⟨?_, ?_, ?_, ?_, rfl, rfl, rfl⟩
  · intro c hc
    unfold final_name at hc
    split at hc
    · rcases mem_collision _ _ _ hc with h | h | h
      · exact mem_merged_filename raw c h
      · subst h
        decide
      · exact hts c h
    · exact mem_merged_filename raw c hc
  · unfold final_name
    split
    · intro h
      have := underscore_mem_collision (merged_filename raw) ts
      rw [h] at this
      cases this
    · exact merged_filename_ne_nil raw
  · unfold final_name
    split
    · intro h
      have := underscore_mem_collision (merged_filename raw) ts
      rw [h] at this
      revert this
      decide
    · intro h
      rename_i hex
      rw [h, hdot] at hex
      exact hex rfl
  · unfold final_name
    split
    · intro h
      have := underscore_mem_collision (merged_filename raw) ts
      rw [h] at this
      revert this
      decide
    · intro h
      rename_i hex
      rw [h, hdotdot] at hex
      exact hex rfl

/-- Witness for C3 (amended): concrete raw name, timestamp and existence
oracle, discharging the hypotheses. -/
theorem destination_never_escapes_witness :
    (∀ c ∈ "143022".toList, c ≠ '/') ∧
    final_name "\\.".toList "143022".toList
      (fun n => decide (n = ['.'] ∨ n = ['.', '.'])) ≠ ['.', '.'] := by
  refine ⟨by decide, ?_⟩
  exact (destination_never_escapes "\\.".toList "143022".toList
    (fun n => decide (n = ['.'] ∨ n = ['.', '.'])) (by decide) (by decide)
    (by decide)).2.2.2.1

/-! ### Merge destination and name collision (`upload_chunk`, lines 678-694) -/

/-- The shared directory: a flat mapping from filename to file content
(shared files live flat in one directory; names are the only identity). -/
def SharedFS : Type := List (List Char × List Nat)

instance : DecidableEq SharedFS := by
  unfold SharedFS
  infer_instance

/-- The destination step of the final-chunk merge, performed inside the
file lock: if a file already exists at the sanitized destination, switch
to the time-suffixed name; then write the merged content there.  Returns
the filename actually used and the shared directory afterwards. -/
def finalize_merge (fs : SharedFS) (fname ts : List Char) (content : List Nat) :
    List Char × SharedFS :=
  if (alookup fs fname).isSome then
    (collision_filename fname ts, aupdate fs (collision_filename fname ts) content)
  else (fname, aupdate fs fname content)

/-- C4: when the final-chunk merge finds an existing file at the sanitized
destination, it writes instead under the disambiguated name formed by
inserting the time suffix between base name and extension
(`report.pdf` becomes `report_143022.pdf`), and the pre-existing file's
content is left untouched by the merge. -/
theorem collision_rename_preserves (fs : SharedFS) (fname ts : List Char)
    (content old : List Nat) (h : alookup fs fname = some old) :
    (finalize_merge fs fname ts content).1 = collision_filename fname ts ∧
    alookup (finalize_merge fs fname ts content).2 fname = some old ∧
    alookup (finalize_merge fs fname ts content).2 (collision_filename fname ts) =
      some content ∧
    collision_filename "report.pdf".toList "143022".toList =
      "report_143022.pdf".toList := by
  have hsome : (alookup fs fname).isSome := by rw [h]; rfl
  refine ⟨?_, ?_, ?_, rfl⟩
  · unfold finalize_merge
    rw [if_pos hsome]
  · unfold finalize_merge
    rw [if_pos hsome]
    rw [alookup_aupdate_ne fs (collision_filename fname ts) fname content
      (fun hh => collision_filename_ne fname ts hh.symm)]
    exact h
  · unfold finalize_merge
    rw [if_pos hsome]
    exact alookup_aupdate_self fs (collision_filename fname ts) content

/-- Witness for C4: a shared directory already holding `report.pdf`. -/
theorem collision_rename_preserves_witness :
    alookup [("report.pdf".toList, [1, 2])] "report.pdf".toList = some [1, 2] ∧
    (finalize_merge [("report.pdf".toList, [1, 2])] "report.pdf".toList
      "143022".toList [3]).1 = "report_143022.pdf".toList ∧
    alookup (finalize_merge [("report.pdf".toList, [1, 2])] "report.pdf".toList
      "143022".toList [3]).2 "report.pdf".toList = some [1, 2] := by
  have hc := collision_rename_preserves [("report.pdf".toList, [1, 2])]
    "report.pdf".toList "143022".toList [3] [1, 2] (by rfl)
  exact ⟨by rfl, by rw [hc.1]; rfl, hc.2.1⟩

/-- C9 (counterexample): the raw name `"\.."` strips to the empty string
and falls back to the placeholder, yet the placeholder receives the raw
extension `"."`: the merge filename is `"unnamed_file."`, not
`"unnamed_file"`, contradicting the claim that a fallback result does not
receive the raw extension. -/
theorem ext_append_placeholder_cex :
    stripped "\\..".toList = [] ∧
    merged_filename "\\..".toList = "unnamed_file.".toList ∧
    merged_filename "\\..".toList ≠ "unnamed_file".toList := by
  refine ⟨rfl, rfl, by decide⟩

/-- C9 (amended): the raw extension is appended exactly when the raw name
has an extension and the sanitized name has none — regardless of whether
the sanitized name fell back to the placeholder; when the pre-fallback
result was empty the appended extension can consist only of dots and
backslashes (so at worst the placeholder gains a trailing dot and
backslashes). -/
theorem ext_append_characterization (raw : List Char) :
    (splitext_ext (safe_filename raw) ≠ [] → merged_filename raw = safe_filename raw) ∧
    (splitext_ext raw = [] → merged_filename raw = safe_filename raw) ∧
    (splitext_ext raw ≠ [] → splitext_ext (safe_filename raw) = [] →
      merged_filename raw = safe_filename raw ++ splitext_ext raw) ∧
    (stripped raw = [] → ∀ c ∈ splitext_ext raw, c = '.' ∨ c = '\\') := by
  refine ⟨?_, ?_, ?_, ?_⟩
  · intro h
    unfold merged_filename
    rw [if_neg (fun hh => h hh.2)]
  · intro h
    unfold merged_filename
    rw [if_neg (fun hh => hh.1 h)]
  · intro h1 h2
    unfold merged_filename
    rw [if_pos ⟨h1, h2⟩]
  · intro h c hc
    exact stripped_empty_chars raw h c (mem_extOf _ _ hc)

/-- Witness for C9 (amended) at the raw name `"\.."`, discharging the
hypotheses of the third and fourth conjuncts. -/
theorem ext_append_characterization_witness :
    merged_filename "\\..".toList =
      safe_filename "\\..".toList ++ splitext_ext "\\..".toList ∧
    ('.' = '.' ∨ '.' = '\\') := by
  exact ⟨(ext_append_characterization "\\..".toList).2.2.1 (by decide) (by decide),
    (ext_append_characterization "\\..".toList).2.2.2 (by decide) '.' (by decide)⟩

/-! ### Temp Reaper (`cleanup_temp_files`, lines 93-117, and
`get_temp_dir_age_hours`, lines 576-586)

Timestamps are rationals (seconds).  A staging-root entry records what the
sweep can observe about it: whether `os.path.isdir` held, whether the
directory vanished between the `isdir` check and the `getmtime` call
(making `getmtime` raise `FileNotFoundError`), the directory's own mtime
and the mtimes of every file recursively inside. -/

/-- One entry of the staging root as the reaper inspects it. -/
structure TempEntry where
  name : String
  isDir : Bool
  vanished : Bool
  dirMtime : ℚ
  fileMtimes : List ℚ
deriving DecidableEq

/-- The running maximum computed by the `os.walk` loop:
`latest = max(dir mtime, mtime of every file inside)`. -/
def latestMtime (e : TempEntry) : ℚ :=
  e.fileMtimes.foldl max e.dirMtime

/-- `get_temp_dir_age_hours`: raises `FileNotFoundError` when the
directory vanished, otherwise `(time.time() - latest) / 3600`. -/
def get_temp_dir_age_hours (now : ℚ) (e : TempEntry) : Except Unit ℚ :=
  if e.vanished then Except.error () else Except.ok ((now - latestMtime e) / 3600)

/-- The constant `TEMP_FILE_CLEANUP_HOURS = 2`. -/
def TEMP_FILE_CLEANUP_HOURS : ℚ := 2

/-- Per-entry decision of the cleanup loop: `true` when the entry is left
in place (not a directory, vanished mid-scan, or young enough), `false`
when its subtree is deleted (`age_hours > TEMP_FILE_CLEANUP_HOURS`). -/
def keepEntry (now : ℚ) (e : TempEntry) : Bool :=
  if !e.isDir then true
  else
    match get_temp_dir_age_hours now e with
    | Except.error _ => true
    | Except.ok age => !(decide (age > TEMP_FILE_CLEANUP_HOURS))

/-- Result of a sweep: the surviving entries, plus the Python return value
of `cleanup_temp_files` — the function has no `return` statement, so it
returns `None`. -/
structure SweepResult where
  remaining : List TempEntry
  retval : Option Nat
deriving DecidableEq

/-- `cleanup_temp_files`: iterate over the staging root, delete every
stale directory, keep everything else.  It takes no threshold parameter
(the 2-hour constant is baked in) and returns no value. -/
def cleanup_temp_files (now : ℚ) (entries : List TempEntry) : SweepResult :=
  { remaining := entries.filter (keepEntry now), retval := none }

theorem keepEntry_iff (now : ℚ) (e : TempEntry) :
    keepEntry now e = true ↔
      ¬(e.isDir = true ∧ e.vanished = false ∧
        (now - latestMtime e) / 3600 > 2) := by
  unfold keepEntry get_temp_dir_age_hours
  cases hd : e.isDir
  · simp
  · cases hv : e.vanished
    · by_cases hage : (now - latestMtime e) / 3600 > TEMP_FILE_CLEANUP_HOURS
      · simp only [TEMP_FILE_CLEANUP_HOURS] at hage
        simp [hage, TEMP_FILE_CLEANUP_HOURS]
      · simp only [TEMP_FILE_CLEANUP_HOURS] at hage
        simp [hage, TEMP_FILE_CLEANUP_HOURS]
    · simp

/-- C6: a sweep deletes a staging-root entry exactly when it is a
directory whose age `now - max(dir mtime, inner file mtimes)` strictly
exceeds 2 hours; younger directories, non-directories and directories
that vanished between listing and inspection survive, the latter without
raising an error (the `FileNotFoundError` is caught and the loop
continues). -/
theorem reaper_removes_iff_stale (now : ℚ) (es : List TempEntry) (e : TempEntry) :
    e ∈ (cleanup_temp_files now es).remaining ↔
      e ∈ es ∧ ¬(e.isDir = true ∧ e.vanished = false ∧
        (now - latestMtime e) / 3600 > 2) := by
  unfold cleanup_temp_files
  simp only [List.mem_filter]
  rw [keepEntry_iff]

/-- A stale staging directory: last activity at time 0, inspected at time
10800 s, i.e. 3 hours later. -/
def staleDir : TempEntry := ⟨"dead-session", true, false, 0, []⟩

/-- C7 (counterexample): a sweep that removes one stale directory does not
return the count of directories removed — `cleanup_temp_files` has no
return statement, so its value is `None`, not `1`. -/
theorem sweep_returns_none_cex :
    (cleanup_temp_files 10800 [staleDir]).remaining = [] ∧
    (cleanup_temp_files 10800 [staleDir]).retval ≠ some 1 := by
  have hstale : keepEntry 10800 staleDir = false := by
    simp only [keepEntry, get_temp_dir_age_hours, latestMtime, staleDir,
      TEMP_FILE_CLEANUP_HOURS]
    norm_num
  constructor
  · simp [cleanup_temp_files, List.filter_cons, hstale]
  · simp [cleanup_temp_files]

/-- C7 (amended): the sweep takes no threshold argument (the 2-hour
constant is baked in) and returns `None` rather than a count; the number
of directories it removes equals the number of stale directory entries,
i.e. survivors plus stale entries account for the whole listing. -/
theorem sweep_retval_and_count (now : ℚ) (es : List TempEntry) :
    (cleanup_temp_files now es).retval = none ∧
    (cleanup_temp_files now es).remaining.length +
      (es.filter (fun e => !keepEntry now e)).length = es.length := by
  refine ⟨rfl, ?_⟩
  unfold cleanup_temp_files
  simp only []
  induction es with
  | nil => simp
  | cons hd tl ih =>
      cases h : keepEntry now hd
      · simp only [List.filter_cons, h, Bool.not_false, Bool.false_eq_true,
          if_false, if_true, List.length_cons]
        omega
      · simp only [List.filter_cons, h, Bool.not_true, Bool.false_eq_true,
          if_false, if_true, List.length_cons]
        omega

/-! ### Lock Registry (`get_file_lock`, lines 79-88)

The `file_locks` dict preserves insertion order (as Python dicts do), so
it is modelled as an association list to which new keys are appended; a
counter allocates the identities of the `threading.Lock()` objects, so
distinct creations yield distinct lock objects. -/

/-- The lock registry: the `file_locks` mapping plus the allocation
counter for lock-object identities. -/
structure LockRegistry where
  locks : List (String × Nat)
  nextId : Nat
deriving DecidableEq

/-- `get_file_lock`: return the existing lock for the path, or lazily
create, register and return a fresh one (the check-then-create runs under
`file_locks_lock`, so it is atomic; the model is sequential). -/
def get_file_lock (filepath : String) (r : LockRegistry) : LockRegistry × Nat :=
  match alookup r.locks filepath with
  | some id => (r, id)
  | none =>
      ({ locks := r.locks ++ [(filepath, r.nextId)], nextId := r.nextId + 1 },
        r.nextId)

/-- A sequence of `get_file_lock` calls for arbitrary paths. -/
def runCalls (keys : List String) (r : LockRegistry) : LockRegistry :=
  keys.foldl (fun s k => (get_file_lock k s).1) r

theorem get_file_lock_of_lookup (key : String) (r : LockRegistry) (v : Nat)
    (h : alookup r.locks key = some v) : get_file_lock key r = (r, v) := by
  unfold get_file_lock
  rw [h]

theorem get_file_lock_self (key : String) (r : LockRegistry) :
    alookup (get_file_lock key r).1.locks key = some (get_file_lock key r).2 := by
  unfold get_file_lock
  cases h : alookup r.locks key
  · simp only []
    rw [alookup_append_right r.locks [(key, r.nextId)] key h]
    simp [alookup]
  · simpa using h

theorem get_file_lock_preserves (key k' : String) (r : LockRegistry) (v : Nat)
    (h : alookup r.locks key = some v) :
    alookup (get_file_lock k' r).1.locks key = some v := by
  unfold get_file_lock
  cases hk : alookup r.locks k'
  · simp only []
    exact alookup_append_left r.locks [(k', r.nextId)] key v h
  · simpa using h

theorem get_file_lock_grows (key : String) (r : LockRegistry) :
    r.locks <+: (get_file_lock key r).1.locks := by
  unfold get_file_lock
  cases h : alookup r.locks key
  · simp only []
    exact List.prefix_append r.locks [(key, r.nextId)]
  · simp

theorem runCalls_preserves (keys : List String) (r : LockRegistry)
    (key : String) (v : Nat) (h : alookup r.locks key = some v) :
    alookup (runCalls keys r).locks key = some v := by
  induction keys generalizing r with
  | nil => exact h
  | cons k ks ih =>
      exact ih (get_file_lock k r).1 (get_file_lock_preserves key k r v h)

theorem runCalls_grows (keys : List String) (r : LockRegistry) :
    r.locks <+: (runCalls keys r).locks := by
  induction keys generalizing r with
  | nil => exact List.prefix_rfl
  | cons k ks ih =>
      exact (get_file_lock_grows k r).trans (ih (get_file_lock k r).1)

/-- C8: for every file path, every `get_file_lock` call returns the same
lock object for that path — the registry entry is created lazily on first
access by appending, and entries are never removed or replaced, so the
mapping only grows and two calls for the same key, however many other
calls are interleaved between them, never observe distinct lock
primitives. -/
theorem lock_registry_stable (r : LockRegistry) (key : String)
    (others : List String) :
    (get_file_lock key (runCalls others (get_file_lock key r).1)).2 =
      (get_file_lock key r).2 ∧
    r.locks <+: (get_file_lock key r).1.locks ∧
    (get_file_lock key r).1.locks <+:
      (runCalls others (get_file_lock key r).1).locks ∧
    (alookup r.locks key = none →
      (get_file_lock key r).1.locks = r.locks ++ [(key, r.nextId)]) := by
  refine ⟨?_, get_file_lock_grows key r, runCalls_grows others _, ?_⟩
  · have h1 := get_file_lock_self key r
    have h2 := runCalls_preserves others (get_file_lock key r).1 key
      (get_file_lock key r).2 h1
    rw [get_file_lock_of_lookup key (runCalls others (get_file_lock key r).1)
      (get_file_lock key r).2 h2]
  · intro h
    unfold get_file_lock
    rw [h]

/-- Witness for C8: an empty registry, first access to `"a"` interleaved
with calls for `"b"` and a repeat `"a"`, discharging the lazy-creation
hypothesis. -/
theorem lock_registry_stable_witness :
    (get_file_lock "a" (runCalls ["b", "a"]
      (get_file_lock "a" (LockRegistry.mk [] 0)).1)).2 =
      (get_file_lock "a" (LockRegistry.mk [] 0)).2 ∧
    (get_file_lock "a" (LockRegistry.mk [] 0)).1.locks = [] ++ [("a", 0)] := by
  exact ⟨(lock_registry_stable (LockRegistry.mk [] 0) "a" ["b", "a"]).1,
    (lock_registry_stable (LockRegistry.mk [] 0) "a" ["b", "a"]).2.2.2 (by rfl)⟩

/-! ### delete_file (lines 770-786)

`delete_file` computes `os.path.basename(filename)`, joins it with the
shared directory, and removes the file there if it exists.  The model's
`SharedFS` holds the regular files directly inside the shared directory.
The basenames `""`, `"."` and `".."` resolve to directories (the shared
directory itself, or its parent), which always exist but make `os.remove`
raise `IsADirectoryError`; the route's exception handler turns that into
a failure response and nothing is deleted. -/

/-- `os.path.join(a, b)` on POSIX for one extra component. -/
def joinPath (a b : List Char) : List Char :=
  if b.head? = some '/' then b
  else if a = [] ∨ a.getLast? = some '/' then a ++ b
  else a ++ '/' :: b

/-- The `delete_file` route body: basename, join, existence check,
`os.remove`.  Returns the shared directory afterwards and whether a file
was removed. -/
def delete_file (fs : SharedFS) (filename : List Char) : SharedFS × Bool :=
  if posixBasename filename = [] ∨ posixBasename filename = ['.'] ∨
      posixBasename filename = ['.', '.'] then (fs, false)
  else
    match alookup fs (posixBasename filename) with
    | some _ => (aerase fs (posixBasename filename), true)
    | none => (fs, false)

/-- C10: `delete_file` checks and removes only the join of the shared
directory with the basename of the client-supplied filename; that
basename contains no `'/'`, so deletion affects at most the shared
directory's direct child named by the final component — `"a/b"` targets
`"b"`, `"../x"` targets `"x"` — and never a file outside the shared
directory. -/
theorem delete_targets_basename_only (fs : SharedFS) (f k : List Char) :
    (∀ c ∈ posixBasename f, c ≠ '/') ∧
    (∀ dir : List Char, dir ≠ [] → dir.getLast? ≠ some '/' →
      joinPath dir (posixBasename f) = dir ++ '/' :: posixBasename f) ∧
    (k ≠ posixBasename f → alookup (delete_file fs f).1 k = alookup fs k) ∧
    posixBasename "a/b".toList = "b".toList ∧
    posixBasename "../x".toList = "x".toList := by
  refine ⟨fun c hc => (mem_posixBasename f c hc).1, ?_, ?_, rfl, rfl⟩
  · intro dir hdir hlast
    unfold joinPath
    have hhead : (posixBasename f).head? ≠ some '/' := by
      cases hb : posixBasename f with
      | nil => simp
      | cons c rest =>
          have : c ≠ '/' := (mem_posixBasename f c (by rw [hb]; simp)).1
          simp [this]
    rw [if_neg hhead, if_neg (by simp [hdir, hlast])]
  · intro hk
    unfold delete_file
    split
    · rfl
    · cases halo : alookup fs (posixBasename f)
      · simp only [halo]
      · simp only [halo]
        exact alookup_aerase_ne fs (posixBasename f) k hk

/-- Witness for C10 at a concrete shared directory and filename,
discharging the hypotheses. -/
theorem delete_targets_basename_only_witness :
    joinPath "/srv/shared".toList (posixBasename "../x".toList) =
      "/srv/shared".toList ++ '/' :: posixBasename "../x".toList ∧
    alookup (delete_file [("x".toList, [1])] "../x".toList).1 "q".toList =
      alookup [("x".toList, [1])] "q".toList := by
  exact ⟨(delete_targets_basename_only [("x".toList, [1])] "../x".toList
      "q".toList).2.1 "/srv/shared".toList (by decide) (by decide),
    (delete_targets_basename_only [("x".toList, [1])] "../x".toList
      "q".toList).2.2.1 (by decide)⟩

end SimpleShare
